import Mathlib

/-!
Verification of the iterative-deepening search engines of this repository.

The repository contains three Python files, each carrying a copy of the same
IDDFS engine specialised to a different domain:

* `src/element_search.py`  — binary-tree lookup (`UserSearchProblem`);
* `src/file_system_search.py` — in-memory filesystem-tree lookup
  (`FileSearchProblem`), with `path_states` path reconstruction;
* `src/rights_search.py` — live-filesystem bounded enumeration
  (`WindowsFileSearchProblem`): collect up to 10 files matching a permission
  predicate at depth ≥ 3.

Each engine is embedded shallowly below, in its own namespace, mirroring the
Python line by line: the explicit LIFO frontier (Python `list` with
`append`/`pop`) is a Lean `List` whose head is the top of the stack, the
search `Node` with its `parent` back-reference is a nested inductive, the
`failure`/`cutoff` sentinel nodes (compared by identity in Python) are
constructors of a tagged result type, and the `for limit in
range(start, sys.maxsize)` driver loop is a fuel recursion with fuel
`sys.maxsize - start` (Python's `sys.maxsize` is `2^63 - 1` on the 64-bit
platforms the code targets).
-/

/-- Python's `sys.maxsize` on a 64-bit platform: the driver loops
`for limit in range(1, sys.maxsize)`. -/
def SYSMAX : Nat := 2 ^ 63 - 1

namespace ElementSearch

/-- Embedding of `BinaryTreeNode` from `src/element_search.py`: a value plus
optional `left`/`right` children. -/
inductive BTree where
  | mk (value : Int) (left : Option BTree) (right : Option BTree)

/-- Field accessor `BinaryTreeNode.value`. -/
def BTree.value : BTree → Int
  | .mk v _ _ => v

/-- Field accessor `BinaryTreeNode.left`. -/
def BTree.left : BTree → Option BTree
  | .mk _ l _ => l

/-- Field accessor `BinaryTreeNode.right`. -/
def BTree.right : BTree → Option BTree
  | .mk _ _ r => r

/-- Number of nodes of a binary tree (termination measure for the frontier
loop; not part of the Python source). -/
def BTree.size : BTree → Nat
  | .mk _ none none => 1
  | .mk _ (some l) none => 1 + l.size
  | .mk _ none (some r) => 1 + r.size
  | .mk _ (some l) (some r) => 1 + l.size + r.size

/-- Height of a binary tree: greatest depth of a node (0 for a single node). -/
def BTree.height : BTree → Nat
  | .mk _ none none => 0
  | .mk _ (some l) none => 1 + l.height
  | .mk _ none (some r) => 1 + r.height
  | .mk _ (some l) (some r) => 1 + max l.height r.height

/-- Whether some node of the binary tree carries value `g`. -/
def BTree.contains : BTree → Int → Bool
  | .mk v l r, g =>
    v == g
      || (match l with | some t => t.contains g | none => false)
      || (match r with | some t => t.contains g | none => false)

/-- Embedding of `UserSearchProblem.actions`: the existing children, left
first then right (Python builds `moves` by appending `state.left` then
`state.right` when present). -/
def actions (s : BTree) : List BTree :=
  (match s.left with | some l => [l] | none => [])
    ++ (match s.right with | some r => [r] | none => [])

/-- Embedding of `UserSearchProblem.result`: the action is the child node
itself, so `result` returns it unchanged. -/
def result (_ : BTree) (action : BTree) : BTree :=
  action

/-- Embedding of `Problem.is_goal` (default): `state.value == self.goal`. -/
def is_goal (goal : Int) (state : BTree) : Bool :=
  state.value == goal

/-- Embedding of the search `Node` of `src/element_search.py`: state, optional
parent back-reference, optional action, accumulated path cost (every
`action_cost` is the constant 1 and the root cost is 0, so the float cost is
always a natural number). -/
inductive Node where
  | mk (state : BTree) (parent : Option Node) (action : Option BTree) (path_cost : Nat)

/-- Field accessor `Node.state`. -/
def Node.state : Node → BTree
  | .mk s _ _ _ => s

/-- Field accessor `Node.parent`. -/
def Node.parent : Node → Option Node
  | .mk _ p _ _ => p

/-- Field accessor `Node.action`. -/
def Node.action : Node → Option BTree
  | .mk _ _ a _ => a

/-- Field accessor `Node.path_cost`. -/
def Node.path_cost : Node → Nat
  | .mk _ _ _ c => c

/-- Embedding of `Node.__len__`: the depth of a search node, the length of its
parent chain. -/
def Node.depth : Node → Nat
  | .mk _ none _ _ => 0
  | .mk _ (some p) _ _ => 1 + p.depth

/-- Embedding of `expand`: one child node per action, in the order `actions`
returns them, with `parent` the expanded node, `action` the applied action and
`path_cost` increased by `action_cost = 1`. -/
def expand (node : Node) : List Node :=
  (actions node.state).map fun a =>
    Node.mk (result node.state a) (some node) (some a) (node.path_cost + 1)

/-- Result of one bounded pass: either a concrete goal node or one of the two
sentinel values `failure` / `cutoff` (Python compares the sentinels by object
identity, which a tagged variant models faithfully). -/
inductive DLSResult where
  | found (n : Node)
  | failure
  | cutoff

/-- Whether a pass result is the `cutoff` sentinel (the Python driver's
`result != cutoff` identity test). -/
def DLSResult.isCutoff : DLSResult → Bool
  | .cutoff => true
  | _ => false

/-- Total number of binary-tree nodes stored in a frontier (termination
measure for `dlsLoop`; not part of the Python source). -/
def frontierSize (fr : List Node) : Nat :=
  (fr.map fun n => n.state.size).sum

/-- Embedding of the `while frontier:` loop of `depth_limited_search` in
`src/element_search.py`.  The head of the list is the top of the LIFO stack,
so Python's `frontier.pop()` takes the head, and the `for child in
expand(...): frontier.append(child)` pushes the children so that the last
child ends on top, i.e. prepends `(expand node).reverse`.  Note this copy of
the engine does NOT gate expansion on the depth bound: after recording
`cutoff` it still pushes every child (`src/element_search.py` lines
145–149). -/
def dlsLoop (goal : Int) (limit : Nat) (frontier : List Node) (res : DLSResult) :
    DLSResult :=
  match frontier with
  | [] => res
  | node :: rest =>
    if is_goal goal node.state then .found node
    else
      dlsLoop goal limit ((expand node).reverse ++ rest)
        (if limit ≤ node.depth then .cutoff else res)
termination_by frontierSize frontier
decreasing_by
  simp only [frontierSize, List.map_append, List.map_reverse, List.sum_append,
    List.sum_reverse, List.map_cons, List.sum_cons, expand, List.map_map]
  have h : ((actions node.state).map
      ((fun n => n.state.size) ∘ fun a =>
        Node.mk (result node.state a) (some node) (some a) (node.path_cost + 1)))
      = (actions node.state).map BTree.size := by
    apply List.map_congr_left
    intro a _
    simp [Node.state, result]
  rw [h]
  have h2 : ((actions node.state).map BTree.size).sum < node.state.size := by
    rcases node.state with ⟨v, l, r⟩
    rcases l with _ | l <;> rcases r with _ | r <;>
      simp [actions, BTree.left, BTree.right, BTree.size]
  omega

/-- Embedding of `depth_limited_search` from `src/element_search.py`: frontier
seeded with the root node wrapping `problem.initial`, running result
initialised to the `failure` sentinel. -/
def depth_limited_search (t : BTree) (goal : Int) (limit : Nat) : DLSResult :=
  dlsLoop goal limit [Node.mk t none none 0] .failure

/-- Tail of the driver loop of `iterative_deepening_search`: try `limit`, and
while the pass result is the `cutoff` sentinel retry with `limit + 1`, for at
most `fuel` passes (modelling the finite `range(1, sys.maxsize)`); `none`
models Python's implicit `None` when the range is exhausted. -/
def idsFrom (t : BTree) (goal : Int) : Nat → Nat → Option DLSResult
  | _, 0 => none
  | limit, fuel + 1 =>
    let r := depth_limited_search t goal limit
    if r.isCutoff then idsFrom t goal (limit + 1) fuel else some r

/-- Embedding of `iterative_deepening_search` from `src/element_search.py`:
`for limit in range(1, sys.maxsize)` runs the limits `1 .. sys.maxsize - 1`,
i.e. at most `sys.maxsize - 1` passes starting at limit 1. -/
def iterative_deepening_search (t : BTree) (goal : Int) : Option DLSResult :=
  idsFrom t goal 1 (SYSMAX - 1)

/-- Leaf `<8>` of the demonstration access-control tree built in `main()`. -/
def demoT8 : BTree := .mk 8 none none

/-- Subtree `<6>` (left child `<8>`) of the demonstration tree. -/
def demoT6 : BTree := .mk 6 (some demoT8) none

/-- Leaf `<7>` of the demonstration tree. -/
def demoT7 : BTree := .mk 7 none none

/-- Subtree `<2>` (children `<6>`, `<7>`) of the demonstration tree. -/
def demoT2 : BTree := .mk 2 (some demoT6) (some demoT7)

/-- Leaf `<4>` of the demonstration tree. -/
def demoT4 : BTree := .mk 4 none none

/-- Subtree `<9>` (right child `<4>`) of the demonstration tree. -/
def demoT9 : BTree := .mk 9 none (some demoT4)

/-- Leaf `<5>` of the demonstration tree. -/
def demoT5 : BTree := .mk 5 none none

/-- Subtree `<3>` (children `<9>`, `<5>`) of the demonstration tree. -/
def demoT3 : BTree := .mk 3 (some demoT9) (some demoT5)

/-- The demonstration tree rooted at `<1>` built in `main()` of
`src/element_search.py`. -/
def demoTree : BTree := .mk 1 (some demoT2) (some demoT3)

/-- The search node for `<4>` that the first pass (`limit = 1`) of the ungated
engine returns on the demonstration tree with goal `4`. -/
def demoFound : Node :=
  .mk demoT4
    (some (.mk demoT9
      (some (.mk demoT3 (some (.mk demoTree none none 0)) (some demoT3) 1))
      (some demoT9) 2))
    (some demoT4) 3

/-- Two-node chain `<10> → <11>`: a non-goal root with one action, used to
exhibit expansion past the depth bound. -/
def chain2 : BTree := .mk 10 (some (.mk 11 none none)) none

/-- The search node for `<11>` that the ungated pass at `limit = 0` returns on
`chain2`: its parent is the root node, which sat at depth `0 = limit` and was
expanded anyway. -/
def chain2Found : Node :=
  .mk (.mk 11 none none) (some (.mk chain2 none none 0)) (some (.mk 11 none none)) 1

/-- Three-node chain `<20> → <21> → <22>`: the only goal `<22>` lies at
depth 2. -/
def chain3 : BTree := .mk 20 (some (.mk 21 (some (.mk 22 none none)) none)) none

/-- The search node for `<22>` (depth 2) that the ungated pass at `limit = 1`
returns on `chain3`. -/
def chain3Found : Node :=
  .mk (.mk 22 none none)
    (some (.mk (.mk 21 (some (.mk 22 none none)) none)
      (some (.mk chain3 none none 0))
      (some (.mk 21 (some (.mk 22 none none)) none)) 1))
    (some (.mk 22 none none)) 2

/-- Tree `<30>` with children `<31>` and `<32>`: a non-goal root with two
available actions. -/
def forkTree : BTree := .mk 30 (some (.mk 31 none none)) (some (.mk 32 none none))

/-- The search node for `<32>` that the pass at `limit = 0` returns on
`forkTree` when the goal is `32`. -/
def forkFound : Node :=
  .mk (.mk 32 none none) (some (.mk forkTree none none 0)) (some (.mk 32 none none)) 1

/-- Tree `<40>` whose two children both carry the value `41`: two goal states
at the same depth under the same parent. -/
def twinTree : BTree := .mk 40 (some (.mk 41 none none)) (some (.mk 41 none none))

end ElementSearch

namespace FileSearch

/-- Embedding of `TreeNode` from `src/file_system_search.py`: a name plus an
ordered list of children. -/
inductive RTree where
  | mk (value : String) (children : List RTree)

/-- Field accessor `TreeNode.value`. -/
def RTree.value : RTree → String
  | .mk v _ => v

/-- Field accessor `TreeNode.children`. -/
def RTree.children : RTree → List RTree
  | .mk _ cs => cs

mutual

/-- Number of nodes of a filesystem tree (termination measure for the
frontier loop; not part of the Python source). -/
def RTree.size : RTree → Nat
  | .mk _ cs => 1 + sizeList cs

/-- Total number of nodes of a list of filesystem trees. -/
def sizeList : List RTree → Nat
  | [] => 0
  | t :: ts => t.size + sizeList ts

end

mutual

/-- Height of a filesystem tree: greatest depth of a node (0 for a leaf). -/
def RTree.height : RTree → Nat
  | .mk _ cs => heightList cs

/-- One more than the greatest height among a list of subtrees (0 for the
empty list). -/
def heightList : List RTree → Nat
  | [] => 0
  | t :: ts => max (1 + t.height) (heightList ts)

end

mutual

/-- Whether some node of the filesystem tree reachable within `d` more levels
carries the name `g` (used to characterise what a bounded pass can see). -/
def containsWithin : RTree → String → Nat → Bool
  | t, g, 0 => t.value == g
  | t, g, d + 1 => t.value == g || containsWithinList t.children g d

/-- `containsWithin` over a list of subtrees. -/
def containsWithinList : List RTree → String → Nat → Bool
  | [], _, _ => false
  | t :: ts, g, d => containsWithin t g d || containsWithinList ts g d

end

/-- Embedding of `FileSearchProblem.actions`: the stored children, in
insertion order. -/
def actions (s : RTree) : List RTree :=
  s.children

/-- Embedding of `FileSearchProblem.result`: the action is the child node
itself. -/
def result (_ : RTree) (action : RTree) : RTree :=
  action

/-- Embedding of `Problem.is_goal` (default): `state.value == self.goal`. -/
def is_goal (goal : String) (state : RTree) : Bool :=
  state.value == goal

/-- Embedding of the search `Node` of `src/file_system_search.py` (same
shape as in `src/element_search.py`). -/
inductive Node where
  | mk (state : RTree) (parent : Option Node) (action : Option RTree) (path_cost : Nat)

/-- Field accessor `Node.state`. -/
def Node.state : Node → RTree
  | .mk s _ _ _ => s

/-- Field accessor `Node.parent`. -/
def Node.parent : Node → Option Node
  | .mk _ p _ _ => p

/-- Field accessor `Node.action`. -/
def Node.action : Node → Option RTree
  | .mk _ _ a _ => a

/-- Field accessor `Node.path_cost`. -/
def Node.path_cost : Node → Nat
  | .mk _ _ _ c => c

/-- Embedding of `Node.__len__`: the depth of a search node. -/
def Node.depth : Node → Nat
  | .mk _ none _ _ => 0
  | .mk _ (some p) _ _ => 1 + p.depth

/-- Embedding of `expand` from `src/file_system_search.py`. -/
def expand (node : Node) : List Node :=
  (actions node.state).map fun a =>
    Node.mk (result node.state a) (some node) (some a) (node.path_cost + 1)

/-- Embedding of `path_states`: the sequence of state names from the root to
the given node, obtained by walking `parent` references and prepending. -/
def path_states : Node → List String
  | .mk s none _ _ => [s.value]
  | .mk s (some p) _ _ => path_states p ++ [s.value]

/-- The sequence of states (search-tree ancestry) from the root node to this
node, obtained from the `parent` chain. -/
def Node.stateChain : Node → List RTree
  | .mk s none _ _ => [s]
  | .mk s (some p) _ _ => p.stateChain ++ [s]

/-- The sequence of recorded actions from the root node to this node,
obtained from the `parent` chain (the root records no action). -/
def Node.actionChain : Node → List RTree
  | .mk _ none _ _ => []
  | .mk _ (some p) a _ => p.actionChain ++ a.toList

/-- Well-formedness of a search node with respect to an initial state: the
root of its parent chain wraps `init` and records no action, and every other
link was built the way `expand` builds children — the recorded action is the
state itself (`result state action = action`) and is one of the parent's
available actions. -/
def Node.WF (init : RTree) : Node → Prop
  | .mk s none a _ => s = init ∧ a = none
  | .mk s (some p) a _ => a = some s ∧ s ∈ actions p.state ∧ Node.WF init p

/-- Result of one bounded pass (tagged variant of goal node / `failure` /
`cutoff`, as in the element search). -/
inductive DLSResult where
  | found (n : Node)
  | failure
  | cutoff

/-- Whether a pass result is the `cutoff` sentinel. -/
def DLSResult.isCutoff : DLSResult → Bool
  | .cutoff => true
  | _ => false

/-- Total number of tree nodes stored in a frontier (termination measure). -/
def frontierSize (fr : List Node) : Nat :=
  (fr.map fun n => n.state.size).sum

/-- Embedding of the `while frontier:` loop of `depth_limited_search` in
`src/file_system_search.py`.  Unlike the copy in `src/element_search.py`,
this one gates expansion: a node whose depth has reached the limit only
records `cutoff` and is NOT expanded (`if len(node) >= limit: result = cutoff
else: ... expand ...`, lines 157–163). -/
def dlsLoop (goal : String) (limit : Nat) (frontier : List Node) (res : DLSResult) :
    DLSResult :=
  match frontier with
  | [] => res
  | node :: rest =>
    if is_goal goal node.state then .found node
    else if limit ≤ node.depth then dlsLoop goal limit rest .cutoff
    else dlsLoop goal limit ((expand node).reverse ++ rest) res
termination_by frontierSize frontier
decreasing_by
· have hpos : 0 < node.state.size := by
    rcases node.state with ⟨v, cs⟩
    simp [RTree.size]
  simp only [frontierSize, List.map_cons, List.sum_cons]
  omega
· have hsum : ∀ cs : List RTree, (cs.map RTree.size).sum = sizeList cs := by
    intro cs
    induction cs with
    | nil => simp [sizeList]
    | cons c cs ih => simp [sizeList, ih]
  have h : ((expand node).map fun n => n.state.size)
      = (actions node.state).map RTree.size := by
    simp only [expand, List.map_map]
    apply List.map_congr_left
    intro a _
    simp [Node.state, result]
  simp only [frontierSize, List.map_append, List.map_reverse, List.sum_append,
    List.sum_reverse, List.map_cons, List.sum_cons, h, hsum]
  rcases node.state with ⟨v, cs⟩
  simp [actions, RTree.children, RTree.size]
/-- Embedding of `depth_limited_search` from `src/file_system_search.py`. -/
def depth_limited_search (t : RTree) (goal : String) (limit : Nat) : DLSResult :=
  dlsLoop goal limit [Node.mk t none none 0] .failure

/-- Tail of the driver loop of `iterative_deepening_search` (same fuel model
as for the element search). -/
def idsFrom (t : RTree) (goal : String) : Nat → Nat → Option DLSResult
  | _, 0 => none
  | limit, fuel + 1 =>
    let r := depth_limited_search t goal limit
    if r.isCutoff then idsFrom t goal (limit + 1) fuel else some r

/-- Embedding of `iterative_deepening_search` from
`src/file_system_search.py`. -/
def iterative_deepening_search (t : RTree) (goal : String) : Option DLSResult :=
  idsFrom t goal 1 (SYSMAX - 1)

/-- Leaf `file_a` of the demonstration filesystem tree built in `main()`. -/
def fileA : RTree := .mk "file_a" []

/-- Leaf `file_b` of the demonstration tree. -/
def fileB : RTree := .mk "file_b" []

/-- Leaf `file_c` of the demonstration tree. -/
def fileC : RTree := .mk "file_c" []

/-- Leaf `file_d` of the demonstration tree. -/
def fileD : RTree := .mk "file_d" []

/-- Directory `subdir_3` with children `file_b`, `file_d`. -/
def subdir3 : RTree := .mk "subdir_3" [fileB, fileD]

/-- Directory `subdir_1` with children `file_a`, `subdir_3`. -/
def subdir1 : RTree := .mk "subdir_1" [fileA, subdir3]

/-- Directory `subdir_2` with child `file_c`. -/
def subdir2 : RTree := .mk "subdir_2" [fileC]

/-- The demonstration filesystem tree rooted at `root` built in `main()` of
`src/file_system_search.py`. -/
def fsRoot : RTree := .mk "root" [subdir1, subdir2]

/-- The search node for `file_d` that the bounded pass at `limit = 3` returns
on the demonstration tree. -/
def fsFound : Node :=
  .mk fileD
    (some (.mk subdir3
      (some (.mk subdir1 (some (.mk fsRoot none none 0)) (some subdir1) 1))
      (some subdir3) 2))
    (some fileD) 3

end FileSearch

namespace RightsSearch

/-- Snapshot of the filesystem as `WindowsFileSearchProblem` of
`src/rights_search.py` observes it through `os.path.isdir`, `os.listdir` and
`os.stat`: every node carries its path string, its stat mode, whether it is a
directory, and (for directories) the listed entries.  A directory whose
listing raises `PermissionError`/`FileNotFoundError` is represented as a
directory with no children, which is exactly how the adapter reports it. -/
inductive FSTree where
  | mk (path : String) (mode : Nat) (isDir : Bool) (children : List FSTree)

/-- Field accessor `FSNode.path`. -/
def FSTree.path : FSTree → String
  | .mk p _ _ _ => p

/-- Observed `os.stat(path).st_mode` of the node. -/
def FSTree.mode : FSTree → Nat
  | .mk _ m _ _ => m

/-- Observed `os.path.isdir(path)` of the node. -/
def FSTree.isDir : FSTree → Bool
  | .mk _ _ b _ => b

/-- Observed `os.listdir(path)` of the node (meaningful for directories). -/
def FSTree.children : FSTree → List FSTree
  | .mk _ _ _ cs => cs

/-- Embedding of `WindowsFileSearchProblem.actions`: the directory entries in
listing order for a directory, and no actions for a plain file. -/
def actions : FSTree → List FSTree
  | .mk _ _ true cs => cs
  | .mk _ _ false _ => []

/-- Embedding of `WindowsFileSearchProblem.result`: the action is the child
filesystem node itself. -/
def result (_ : FSTree) (action : FSTree) : FSTree :=
  action

/-- Embedding of `WindowsFileSearchProblem.is_goal`: a plain file whose stat
mode equals `33206` (readable and writable regular file). -/
def is_goal : FSTree → Bool
  | .mk _ mode false _ => mode == 33206
  | .mk _ _ true _ => false

mutual

/-- Number of snapshot nodes (termination measure; not part of the source). -/
def FSTree.size : FSTree → Nat
  | .mk _ _ _ cs => 1 + sizeList cs

/-- Total number of snapshot nodes in a list of trees. -/
def sizeList : List FSTree → Nat
  | [] => 0
  | t :: ts => t.size + sizeList ts

end

mutual

/-- Height of the part of the snapshot reachable through `actions`: 0 for a
plain file, one more than the tallest listed entry for a directory. -/
def FSTree.height : FSTree → Nat
  | .mk _ _ true cs => heightList cs
  | .mk _ _ false _ => 0

/-- One more than the greatest height among a list of subtrees (0 for the
empty list). -/
def heightList : List FSTree → Nat
  | [] => 0
  | t :: ts => max (1 + t.height) (heightList ts)

end

mutual

/-- Number of nodes reachable through `actions` from a node sitting at depth
`d` that satisfy `is_goal` and sit at depth ≥ 3 — the states the bounded
enumeration is asked to collect. -/
def matchCount : Nat → FSTree → Nat
  | d, .mk p m true cs =>
    (if 3 ≤ d ∧ is_goal (.mk p m true cs) = true then 1 else 0)
      + matchCountList (d + 1) cs
  | d, .mk p m false cs =>
    if 3 ≤ d ∧ is_goal (.mk p m false cs) = true then 1 else 0

/-- `matchCount` summed over a list of subtrees, all at depth `d` (for a plain
file the recursion stops, matching `actions`, which yields no entries
there). -/
def matchCountList : Nat → List FSTree → Nat
  | _, [] => 0
  | d, c :: cs => matchCount d c + matchCountList d cs

end

/-- `Reach t d s`: the state `s` is reachable from `t` through `d`
applications of `actions` (so it sits `d` levels below `t`). -/
inductive Reach : FSTree → Nat → FSTree → Prop where
  | refl (t : FSTree) : Reach t 0 t
  | head {t c : FSTree} {d : Nat} {s : FSTree} :
      c ∈ actions t → Reach c d s → Reach t (d + 1) s

/-- Embedding of the search `Node` of `src/rights_search.py`. -/
inductive Node where
  | mk (state : FSTree) (parent : Option Node) (action : Option FSTree) (path_cost : Nat)

/-- Field accessor `Node.state`. -/
def Node.state : Node → FSTree
  | .mk s _ _ _ => s

/-- Field accessor `Node.parent`. -/
def Node.parent : Node → Option Node
  | .mk _ p _ _ => p

/-- Field accessor `Node.path_cost`. -/
def Node.path_cost : Node → Nat
  | .mk _ _ _ c => c

/-- Embedding of `Node.__len__`: the depth of a search node. -/
def Node.depth : Node → Nat
  | .mk _ none _ _ => 0
  | .mk _ (some p) _ _ => 1 + p.depth

/-- Embedding of `expand` from `src/rights_search.py`. -/
def expand (node : Node) : List Node :=
  (actions node.state).map fun a =>
    Node.mk (result node.state a) (some node) (some a) (node.path_cost + 1)

/-- Result of one bounded pass of the enumeration search: the node whose
visit filled the accumulator to 10 entries, or a sentinel. -/
inductive DLSResult where
  | found (n : Node)
  | failure
  | cutoff

/-- Whether a pass result is the `cutoff` sentinel. -/
def DLSResult.isCutoff : DLSResult → Bool
  | .cutoff => true
  | _ => false

/-- Total number of snapshot nodes stored in a frontier (termination
measure). -/
def frontierSize (fr : List Node) : Nat :=
  (fr.map fun n => n.state.size).sum

/-- Embedding of the `while frontier:` loop of `depth_limited_search` in
`src/rights_search.py`, threading the shared `found_files` accumulator.  On
each visited node: if its depth is ≥ 3 and it satisfies `is_goal`, its path is
appended to `found_files`, and if the accumulator has then reached 10 entries
the pass returns the node at once; otherwise the pass proceeds with the gated
cutoff/expansion logic (`if depth >= limit: result = cutoff else: expand`).
The Python `if` sequence is flattened into nested conditionals. -/
def rloop (limit : Nat) (frontier : List Node) (found : List String)
    (res : DLSResult) : DLSResult × List String :=
  match frontier with
  | [] => (res, found)
  | node :: rest =>
    if 3 ≤ node.depth ∧ is_goal node.state = true then
      if 10 ≤ (found ++ [node.state.path]).length then
        (.found node, found ++ [node.state.path])
      else if limit ≤ node.depth then
        rloop limit rest (found ++ [node.state.path]) .cutoff
      else
        rloop limit ((expand node).reverse ++ rest) (found ++ [node.state.path]) res
    else
      if limit ≤ node.depth then
        rloop limit rest found .cutoff
      else
        rloop limit ((expand node).reverse ++ rest) found res
termination_by frontierSize frontier
decreasing_by
· have hpos : 0 < node.state.size := by
    rcases node.state with ⟨p, m, b, cs⟩
    simp [FSTree.size]
  simp only [frontierSize, List.map_cons, List.sum_cons]
  omega
· have hsum : ∀ cs : List FSTree, (cs.map FSTree.size).sum = sizeList cs := by
    intro cs
    induction cs with
    | nil => simp [sizeList]
    | cons c cs ih => simp [sizeList, ih]
  have h : ((expand node).map fun n => n.state.size)
      = (actions node.state).map FSTree.size := by
    simp only [expand, List.map_map]
    apply List.map_congr_left
    intro a _
    simp [Node.state, result]
  simp only [frontierSize, List.map_append, List.map_reverse, List.sum_append,
    List.sum_reverse, List.map_cons, List.sum_cons, h, hsum]
  rcases node.state with ⟨p, m, b, cs⟩
  rcases b with _ | _ <;> simp [actions, FSTree.size, sizeList]
· have hpos : 0 < node.state.size := by
    rcases node.state with ⟨p, m, b, cs⟩
    simp [FSTree.size]
  simp only [frontierSize, List.map_cons, List.sum_cons]
  omega
· have hsum : ∀ cs : List FSTree, (cs.map FSTree.size).sum = sizeList cs := by
    intro cs
    induction cs with
    | nil => simp [sizeList]
    | cons c cs ih => simp [sizeList, ih]
  have h : ((expand node).map fun n => n.state.size)
      = (actions node.state).map FSTree.size := by
    simp only [expand, List.map_map]
    apply List.map_congr_left
    intro a _
    simp [Node.state, result]
  simp only [frontierSize, List.map_append, List.map_reverse, List.sum_append,
    List.sum_reverse, List.map_cons, List.sum_cons, h, hsum]
  rcases node.state with ⟨p, m, b, cs⟩
  rcases b with _ | _ <;> simp [actions, FSTree.size, sizeList]

/-- Embedding of `depth_limited_search` from `src/rights_search.py`: one
bounded pass over the snapshot rooted at `t`, starting from the accumulator
`found_files` shared with earlier passes, returning the pass result together
with the grown accumulator. -/
def depth_limited_search (t : FSTree) (limit : Nat) (found_files : List String) :
    DLSResult × List String :=
  rloop limit [Node.mk t none none 0] found_files .failure

/-- Tail of the driver loop of `iterative_deepening_search` in
`src/rights_search.py`: run a pass, return if the accumulator has reached 10
entries or the pass result is not the `cutoff` sentinel, otherwise retry with
`limit + 1`.  Python's driver always returns `None` and communicates through
the mutated `found_files` list, which this embedding returns. -/
def idsFrom (t : FSTree) : Nat → Nat → List String → List String
  | _, 0, found => found
  | limit, fuel + 1, found =>
    match depth_limited_search t limit found with
    | (r, found') =>
      if 10 ≤ found'.length then found'
      else if r.isCutoff then idsFrom t (limit + 1) fuel found'
      else found'

/-- Embedding of `iterative_deepening_search` from `src/rights_search.py`:
`for limit in range(start_depth, sys.maxsize)` runs the limits
`start_depth .. sys.maxsize - 1`. -/
def iterative_deepening_search (t : FSTree) (start_depth : Nat)
    (found_files : List String) : List String :=
  idsFrom t start_depth (SYSMAX - start_depth) found_files

/-- Matching file `m` (mode 33206) at depth 3 of the counterexample
snapshot. -/
def cM : FSTree := .mk "m" 33206 false []

/-- Directory `b` holding `m`. -/
def cB : FSTree := .mk "b" 0 true [cM]

/-- Directory `a` holding `b`. -/
def cA : FSTree := .mk "a" 0 true [cB]

/-- Non-matching file `f` at depth 4 of the counterexample snapshot (it
forces the passes at limits 3 and 4 to record a cutoff). -/
def cF : FSTree := .mk "f" 0 false []

/-- Directory `e` holding `f`. -/
def cE : FSTree := .mk "e" 0 true [cF]

/-- Directory `d` holding `e`. -/
def cD : FSTree := .mk "d" 0 true [cE]

/-- Directory `c` holding `d`. -/
def cC : FSTree := .mk "c" 0 true [cD]

/-- Counterexample snapshot: exactly one matching node (`m`, at depth 3), but
a depth-4 chain keeps the driver running three passes (limits 3, 4, 5), each
of which appends `m`'s path again. -/
def demoFS : FSTree := .mk "rootdir" 0 true [cA, cC]

end RightsSearch
namespace ElementSearch

theorem contains_iff (t : BTree) (g : Int) :
    t.contains g = true ↔ t.value = g ∨ ∃ c ∈ actions t, c.contains g = true := by
  rcases t with ⟨v, l, r⟩
  rcases l with _ | l <;> rcases r with _ | r <;>
    simp [BTree.contains, actions, BTree.left, BTree.right, BTree.value] <;> tauto

theorem contains_child {t c : BTree} {g : Int} (h : ¬ t.contains g = true)
    (hc : c ∈ actions t) : ¬ c.contains g = true := by
  intro hcc
  exact h ((contains_iff t g).mpr (Or.inr ⟨c, hc, hcc⟩))

theorem value_of_not_contains {t : BTree} {g : Int} (h : ¬ t.contains g = true) :
    ¬ t.value = g := by
  intro hv
  exact h ((contains_iff t g).mpr (Or.inl hv))

theorem height_child {t c : BTree} (hc : c ∈ actions t) :
    1 + c.height ≤ t.height := by
  rcases t with ⟨v, l, r⟩
  rcases l with _ | l <;> rcases r with _ | r <;>
    simp_all [actions, BTree.left, BTree.right, BTree.height] <;>
    rcases hc with rfl | rfl <;> omega

theorem height_split {t : BTree} {d limit : Nat} (h : limit ≤ d + t.height) :
    limit ≤ d ∨ ∃ c ∈ actions t, limit ≤ (1 + d) + c.height := by
  rcases t with ⟨v, l, r⟩
  rcases l with _ | l <;> rcases r with _ | r <;>
    simp_all [actions, BTree.left, BTree.right, BTree.height] <;> omega

theorem mem_expand {node m : Node} :
    m ∈ expand node ↔
      ∃ a ∈ actions node.state,
        m = Node.mk a (some node) (some a) (node.path_cost + 1) := by
  simp [expand, result, eq_comm]

theorem depth_child (node : Node) (a : BTree) (x : Option BTree) (c : Nat) :
    (Node.mk a (some node) x c).depth = 1 + node.depth := by
  simp [Node.depth]

theorem not_value_of_not_goal {g : Int} {s : BTree} (h : ¬ is_goal g s = true) :
    ¬ s.value = g := by
  simpa [is_goal, beq_iff_eq] using h

theorem dlsLoop_found_of_contains (g : Int) (limit : Nat)
    (fr : List Node) (res : DLSResult) :
    (∃ m ∈ fr, m.state.contains g = true) →
    ∃ n, dlsLoop g limit fr res = .found n ∧ n.state.value = g := by
  induction fr, res using dlsLoop.induct g limit with
  | case1 res => simp
  | case2 res node rest hg =>
    intro _
    refine ⟨node, ?_, ?_⟩
    · rw [dlsLoop]
      simp [hg]
    · simpa [is_goal, beq_iff_eq] using hg
  | case3 res node rest hg ih =>
    simp only [dite_eq_ite] at ih
    rintro ⟨m, hm, hcont⟩
    rw [dlsLoop]
    simp only [hg, if_false, if_neg]
    apply ih
    rcases List.mem_cons.mp hm with rfl | hm
    · rcases (contains_iff m.state g).mp hcont with hv | ⟨c, hc, hcc⟩
      · exact absurd hv (not_value_of_not_goal hg)
      · refine ⟨Node.mk c (some m) (some c) (m.path_cost + 1), ?_, ?_⟩
        · simp only [List.mem_append, List.mem_reverse]
          exact Or.inl (mem_expand.mpr ⟨c, hc, rfl⟩)
        · simpa [Node.state] using hcc
    · exact ⟨m, by simp [hm], hcont⟩

theorem dlsLoop_cutoff (g : Int) (limit : Nat) (fr : List Node) (res : DLSResult) :
    (∀ m ∈ fr, ¬ m.state.contains g = true) →
    (res = .cutoff ∨ ∃ m ∈ fr, limit ≤ m.depth + m.state.height) →
    dlsLoop g limit fr res = .cutoff := by
  induction fr, res using dlsLoop.induct g limit with
  | case1 res =>
    intro _ h
    rcases h with rfl | ⟨m, hm, _⟩
    · rw [dlsLoop]
    · simp at hm
  | case2 res node rest hg =>
    intro hnc _
    exact absurd ((contains_iff node.state g).mpr
      (Or.inl (by simpa [is_goal, beq_iff_eq] using hg))) (hnc node (by simp))
  | case3 res node rest hg ih =>
    simp only [dite_eq_ite] at ih
    intro hnc hcond
    rw [dlsLoop]
    simp only [hg, if_false, if_neg]
    have hnc' : ∀ m ∈ (expand node).reverse ++ rest, ¬ m.state.contains g = true := by
      intro m hm
      rcases List.mem_append.mp hm with hm | hm
      · obtain ⟨a, ha, rfl⟩ := mem_expand.mp (List.mem_reverse.mp hm)
        simpa [Node.state] using contains_child (hnc node (by simp)) ha
      · exact hnc m (by simp [hm])
    apply ih hnc'
    rcases hcond with rfl | ⟨m, hm, hlim⟩
    · left
      simp
    · rcases List.mem_cons.mp hm with rfl | hm
      · rcases height_split hlim with hld | ⟨c, hc, hcl⟩
        · left
          simp [hld]
        · right
          refine ⟨Node.mk c (some m) (some c) (m.path_cost + 1), ?_, ?_⟩
          · simp only [List.mem_append, List.mem_reverse]
            exact Or.inl (mem_expand.mpr ⟨c, hc, rfl⟩)
          · simpa [Node.state, depth_child] using hcl
      · exact Or.inr ⟨m, by simp [hm], hlim⟩

theorem dlsLoop_of_shallow (g : Int) (limit : Nat) (fr : List Node) (res : DLSResult) :
    (∀ m ∈ fr, ¬ m.state.contains g = true) →
    (∀ m ∈ fr, m.depth + m.state.height < limit) →
    dlsLoop g limit fr res = res := by
  induction fr, res using dlsLoop.induct g limit with
  | case1 res =>
    intro _ _
    rw [dlsLoop]
  | case2 res node rest hg =>
    intro hnc _
    exact absurd ((contains_iff node.state g).mpr
      (Or.inl (by simpa [is_goal, beq_iff_eq] using hg))) (hnc node (by simp))
  | case3 res node rest hg ih =>
    simp only [dite_eq_ite] at ih
    intro hnc hsh
    have hd : node.depth + node.state.height < limit := hsh node (by simp)
    rw [dlsLoop]
    simp only [hg, if_false, if_neg]
    rw [if_neg (show ¬ limit ≤ node.depth by omega)]
    have : (if limit ≤ node.depth then DLSResult.cutoff else res) = res :=
      if_neg (show ¬ limit ≤ node.depth by omega)
    rw [← this]
    apply ih
    · intro m hm
      rcases List.mem_append.mp hm with hm | hm
      · obtain ⟨a, ha, rfl⟩ := mem_expand.mp (List.mem_reverse.mp hm)
        simpa [Node.state] using contains_child (hnc node (by simp)) ha
      · exact hnc m (by simp [hm])
    · intro m hm
      rcases List.mem_append.mp hm with hm | hm
      · obtain ⟨a, ha, rfl⟩ := mem_expand.mp (List.mem_reverse.mp hm)
        have := height_child ha
        simp only [Node.state, depth_child]
        omega
      · exact hsh m (by simp [hm])

end ElementSearch
namespace ElementSearch

theorem dls_cutoff_of_le_height (t : BTree) (g : Int) (limit : Nat)
    (h : ¬ t.contains g = true) (hl : limit ≤ t.height) :
    depth_limited_search t g limit = .cutoff := by
  apply dlsLoop_cutoff
  · intro m hm
    rcases List.mem_singleton.mp hm with rfl
    simpa [Node.state] using h
  · right
    exact ⟨Node.mk t none none 0, by simp, by simpa [Node.state, Node.depth] using hl⟩

theorem dls_failure_of_gt_height (t : BTree) (g : Int) (limit : Nat)
    (h : ¬ t.contains g = true) (hl : t.height < limit) :
    depth_limited_search t g limit = .failure := by
  apply dlsLoop_of_shallow
  · intro m hm
    rcases List.mem_singleton.mp hm with rfl
    simpa [Node.state] using h
  · intro m hm
    rcases List.mem_singleton.mp hm with rfl
    simpa [Node.state, Node.depth] using hl

theorem idsFrom_failure (t : BTree) (g : Int) (h : ¬ t.contains g = true) :
    ∀ fuel limit, 1 ≤ fuel → (t.height < limit ∨ t.height + 2 ≤ limit + fuel) →
    idsFrom t g limit fuel = some .failure := by
  intro fuel
  induction fuel with
  | zero => omega
  | succ f ih =>
    intro limit _ hcond
    by_cases hc : t.height < limit
    · have hdls := dls_failure_of_gt_height t g limit h hc
      simp [idsFrom, hdls, DLSResult.isCutoff]
    · have hdls := dls_cutoff_of_le_height t g limit h (by omega)
      simp only [idsFrom, hdls, DLSResult.isCutoff, if_true]
      exact ih (limit + 1) (by omega) (by omega)

theorem ids_found_of_contains (t : BTree) (g : Int) (h : t.contains g = true) :
    ∃ n, iterative_deepening_search t g = some (.found n) ∧ n.state.value = g := by
  obtain ⟨n, hn, hv⟩ := dlsLoop_found_of_contains g 1 [Node.mk t none none 0] .failure
    ⟨Node.mk t none none 0, by simp, by simpa [Node.state] using h⟩
  refine ⟨n, ?_, hv⟩
  have hdls : depth_limited_search t g 1 = .found n := hn
  obtain ⟨f, hf⟩ : ∃ f, SYSMAX - 1 = f + 1 := ⟨SYSMAX - 2, by decide⟩
  rw [iterative_deepening_search, hf]
  simp [idsFrom, hdls, DLSResult.isCutoff]

theorem idsFrom_ne_cutoff (t : BTree) (g : Int) :
    ∀ fuel limit r, idsFrom t g limit fuel = some r → ¬ r = .cutoff := by
  intro fuel
  induction fuel with
  | zero => intro limit r hr; simp [idsFrom] at hr
  | succ f ih =>
    intro limit r hr
    rw [idsFrom] at hr
    by_cases hc : (depth_limited_search t g limit).isCutoff = true
    · rw [if_pos hc] at hr
      exact ih (limit + 1) r hr
    · rw [if_neg hc] at hr
      rcases Option.some_injective _ hr with rfl
      intro hcut
      rw [hcut] at hc
      exact hc rfl

end ElementSearch

/-- Claim C1: for every finite binary tree and goal value, the element-search
driver returns a node whose state's value equals the goal iff some node of the
tree carries that value, and returns the `failure` sentinel otherwise.  The
height hypothesis says the tree is not too deep for `range(1, sys.maxsize)`. -/
theorem claim_C1_single_goal_driver (t : ElementSearch.BTree) (g : Int)
    (h : t.height + 2 ≤ SYSMAX) :
    ((∃ n, ElementSearch.iterative_deepening_search t g
        = some (.found n) ∧ n.state.value = g) ↔ t.contains g = true)
    ∧ (¬ t.contains g = true →
        ElementSearch.iterative_deepening_search t g = some .failure) := by
  have hfail : ¬ t.contains g = true →
      ElementSearch.iterative_deepening_search t g = some .failure := by
    intro hnc
    apply ElementSearch.idsFrom_failure t g hnc (SYSMAX - 1) 1
    · have : 1 ≤ SYSMAX := by decide
      omega
    · right
      have : 1 ≤ SYSMAX := by decide
      omega
  constructor
  · constructor
    · rintro ⟨n, hn, _⟩
      by_contra hnc
      rw [hfail hnc] at hn
      simp at hn
    · intro hc
      exact ElementSearch.ids_found_of_contains t g hc
  · exact hfail

theorem claim_C1_witness :
    (ElementSearch.demoTree.height + 2 ≤ SYSMAX)
    ∧ ElementSearch.iterative_deepening_search ElementSearch.demoTree 99
        = some .failure := by
  have h : ElementSearch.demoTree.height + 2 ≤ SYSMAX := by decide
  refine ⟨h, ?_⟩
  apply (claim_C1_single_goal_driver ElementSearch.demoTree 99 h).2
  decide
/-- Claim C2 (code bug): in `src/element_search.py` the depth bound does not
gate expansion.  On the chain `<10> → <11>` with goal `11` and `limit = 0`,
the root search node has depth `0 ≥ limit`, yet the pass expands it: the pass
returns a goal node of depth 1 whose parent is precisely that root node, so a
child of a node at depth `≥ limit` was created and pushed. -/
theorem claim_C2_expansion_not_gated :
    ElementSearch.depth_limited_search ElementSearch.chain2 11 0
        = .found ElementSearch.chain2Found
    ∧ ElementSearch.chain2Found.parent
        = some (ElementSearch.Node.mk ElementSearch.chain2 none none 0)
    ∧ (ElementSearch.Node.mk ElementSearch.chain2 none none 0).depth = 0
    ∧ ElementSearch.chain2Found.depth = 1 := by
  refine ⟨?_, by simp [ElementSearch.chain2Found, ElementSearch.Node.parent], by
    simp [ElementSearch.Node.depth], by
    simp [ElementSearch.chain2Found, ElementSearch.Node.depth]⟩
  simp [ElementSearch.depth_limited_search, ElementSearch.dlsLoop,
    ElementSearch.expand, ElementSearch.actions, ElementSearch.is_goal,
    ElementSearch.result, ElementSearch.Node.state, ElementSearch.Node.depth,
    ElementSearch.Node.path_cost, ElementSearch.BTree.left,
    ElementSearch.BTree.right, ElementSearch.BTree.value,
    ElementSearch.chain2, ElementSearch.chain2Found]

/-- Claim C3 (code bug): on the chain `<20> → <21> → <22>` the only goal
`<22>` lies at depth 2, yet the ungated pass of `src/element_search.py` with
bound `1 < 2` performs a successful match and returns the depth-2 goal node,
and the driver's final (goal-returning) pass is therefore the very first one,
with bound `1 < 2`. -/
theorem claim_C3_goal_below_bound :
    ElementSearch.depth_limited_search ElementSearch.chain3 22 1
        = .found ElementSearch.chain3Found
    ∧ ElementSearch.chain3Found.depth = 2
    ∧ ElementSearch.iterative_deepening_search ElementSearch.chain3 22
        = some (.found ElementSearch.chain3Found) := by
  refine ⟨?_, by simp [ElementSearch.chain3Found, ElementSearch.Node.depth], ?_⟩
  · simp [ElementSearch.depth_limited_search, ElementSearch.dlsLoop,
      ElementSearch.expand, ElementSearch.actions, ElementSearch.is_goal,
      ElementSearch.result, ElementSearch.Node.state, ElementSearch.Node.depth,
      ElementSearch.Node.path_cost, ElementSearch.BTree.left,
      ElementSearch.BTree.right, ElementSearch.BTree.value,
      ElementSearch.chain3, ElementSearch.chain3Found]
  · simp [ElementSearch.iterative_deepening_search, SYSMAX, ElementSearch.idsFrom,
      ElementSearch.depth_limited_search, ElementSearch.dlsLoop,
      ElementSearch.expand, ElementSearch.actions, ElementSearch.is_goal,
      ElementSearch.result, ElementSearch.Node.state, ElementSearch.Node.depth,
      ElementSearch.Node.path_cost, ElementSearch.BTree.left,
      ElementSearch.BTree.right, ElementSearch.BTree.value,
      ElementSearch.DLSResult.isCutoff,
      ElementSearch.chain3, ElementSearch.chain3Found]
/-- Claim C6 (code bug): on the tree `<30>` with children `<31>`, `<32>`, goal
`32` and `limit = 0`, the initial state is not a goal and has two available
actions, yet the pass of `src/element_search.py` does not return the `cutoff`
sentinel: because expansion is not gated it reaches the depth-1 goal. -/
theorem claim_C6_limit_zero_not_cutoff :
    ElementSearch.is_goal 32 ElementSearch.forkTree = false
    ∧ (ElementSearch.actions ElementSearch.forkTree).length = 2
    ∧ ElementSearch.depth_limited_search ElementSearch.forkTree 32 0
        = .found ElementSearch.forkFound := by
  refine ⟨rfl, rfl, ?_⟩
  simp [ElementSearch.depth_limited_search, ElementSearch.dlsLoop,
    ElementSearch.expand, ElementSearch.actions, ElementSearch.is_goal,
    ElementSearch.result, ElementSearch.Node.state, ElementSearch.Node.depth,
    ElementSearch.Node.path_cost, ElementSearch.BTree.left,
    ElementSearch.BTree.right, ElementSearch.BTree.value,
    ElementSearch.forkTree, ElementSearch.forkFound]

/-- Claim C5: the LIFO frontier visits siblings in the reverse of the order
`actions` returns them.  Whenever the root is not a goal and both its children
are goal states (same depth, same parent), every bounded pass returns the
*right* child — the one occurring later in the `[left, right]` actions
sequence — as the last-pushed sibling is popped first. -/
theorem claim_C5_lifo_reversed_sibling_order (v : Int) (l r : ElementSearch.BTree)
    (g : Int) (limit : Nat) (hv : ¬ v = g)
    (hl : l.value = g) (hr : r.value = g) :
    ElementSearch.depth_limited_search (.mk v (some l) (some r)) g limit
      = .found (ElementSearch.Node.mk r
          (some (ElementSearch.Node.mk (.mk v (some l) (some r)) none none 0))
          (some r) 1) := by
  have hroot : ElementSearch.is_goal g (.mk v (some l) (some r)) = false := by
    simp [ElementSearch.is_goal, ElementSearch.BTree.value, hv]
  have hrg : ElementSearch.is_goal g r = true := by
    simp [ElementSearch.is_goal, hr]
  simp [ElementSearch.depth_limited_search, ElementSearch.dlsLoop,
    ElementSearch.expand, ElementSearch.actions,
    ElementSearch.result, ElementSearch.Node.state, ElementSearch.Node.depth,
    ElementSearch.Node.path_cost, ElementSearch.BTree.left,
    ElementSearch.BTree.right, hroot, hrg]

theorem claim_C5_witness :
    ¬ (40 : Int) = 41
    ∧ (ElementSearch.BTree.mk 41 none none).value = 41
    ∧ ElementSearch.depth_limited_search ElementSearch.twinTree 41 9
      = .found (ElementSearch.Node.mk (.mk 41 none none)
          (some (ElementSearch.Node.mk ElementSearch.twinTree none none 0))
          (some (.mk 41 none none)) 1) :=
  ⟨by decide, rfl,
    claim_C5_lifo_reversed_sibling_order 40 (.mk 41 none none) (.mk 41 none none)
      41 9 (by decide) rfl rfl⟩
namespace FileSearch

theorem fs_heightList_ge {cs : List RTree} {c : RTree} (hc : c ∈ cs) :
    1 + c.height ≤ heightList cs := by
  induction cs with
  | nil => simp at hc
  | cons d ds ih =>
    rcases List.mem_cons.mp hc with rfl | hc
    · simp [heightList]
    · have := ih hc
      simp [heightList]
      omega

theorem fs_height_child {t c : RTree} (hc : c ∈ actions t) :
    1 + c.height ≤ t.height := by
  rcases t with ⟨v, cs⟩
  simpa [RTree.height, actions, RTree.children] using fs_heightList_ge hc

theorem fs_mem_expand {node m : Node} :
    m ∈ expand node ↔
      ∃ a ∈ actions node.state,
        m = Node.mk a (some node) (some a) (node.path_cost + 1) := by
  simp [expand, result, eq_comm]

theorem fs_depth_child (node : Node) (a : RTree) (x : Option RTree) (c : Nat) :
    (Node.mk a (some node) x c).depth = 1 + node.depth := by
  simp [Node.depth]

theorem dlsLoop_ne_cutoff (g : String) (limit : Nat) (fr : List Node)
    (res : DLSResult) :
    ¬ res = .cutoff → (∀ m ∈ fr, m.depth + m.state.height < limit) →
    ¬ dlsLoop g limit fr res = .cutoff := by
  induction fr, res using dlsLoop.induct g limit with
  | case1 res =>
    intro hres _
    rw [dlsLoop]
    exact hres
  | case2 res node rest hg =>
    intro _ _
    rw [dlsLoop]
    simp [hg]
  | case3 res node rest hg hd ih =>
    intro _ hsh
    have := hsh node (by simp)
    omega
  | case4 res node rest hg hd ih =>
    intro hres hsh
    rw [dlsLoop]
    simp only [hg, if_false, if_neg, hd]
    apply ih hres
    intro m hm
    rcases List.mem_append.mp hm with hm | hm
    · obtain ⟨a, ha, rfl⟩ := fs_mem_expand.mp (List.mem_reverse.mp hm)
      have := fs_height_child ha
      have := hsh node (by simp)
      simp only [Node.state, fs_depth_child]
      omega
    · exact hsh m (by simp [hm])

theorem dls_ne_cutoff (t : RTree) (g : String) :
    ¬ (depth_limited_search t g (t.height + 1)).isCutoff = true := by
  intro hc
  have hne : ¬ dlsLoop g (t.height + 1) [Node.mk t none none 0] .failure
      = .cutoff := by
    apply dlsLoop_ne_cutoff
    · intro h
      cases h
    · intro m hm
      rcases List.mem_singleton.mp hm with rfl
      simp [Node.state, Node.depth]
  have : depth_limited_search t g (t.height + 1) = .cutoff := by
    cases hv : depth_limited_search t g (t.height + 1) <;>
      simp [hv, DLSResult.isCutoff] at hc <;> rfl
  exact hne this

theorem idsFrom_stops (t : RTree) (g : String) :
    ∀ fuel limit,
      (∃ L, limit ≤ L ∧ L < limit + fuel ∧
        ¬ (depth_limited_search t g L).isCutoff = true) →
      ∃ L, ¬ (depth_limited_search t g L).isCutoff = true
        ∧ idsFrom t g limit fuel = some (depth_limited_search t g L) := by
  intro fuel
  induction fuel with
  | zero =>
    rintro limit ⟨L, h1, h2, _⟩
    omega
  | succ f ih =>
    rintro limit ⟨L, h1, h2, h3⟩
    by_cases hc : (depth_limited_search t g limit).isCutoff = true
    · have hLl : ¬ L = limit := by
        intro h
        rw [h] at h3
        exact h3 hc
      obtain ⟨L', hL1, hL2⟩ := ih (limit + 1) ⟨L, by omega, by omega, h3⟩
      refine ⟨L', hL1, ?_⟩
      rw [idsFrom]
      simp only [hc, if_true]
      exact hL2
    · refine ⟨limit, hc, ?_⟩
      rw [idsFrom]
      simp [hc]

theorem fs_idsFrom_ne_cutoff (t : RTree) (g : String) :
    ∀ fuel limit r, idsFrom t g limit fuel = some r → ¬ r = .cutoff := by
  intro fuel
  induction fuel with
  | zero => intro limit r hr; simp [idsFrom] at hr
  | succ f ih =>
    intro limit r hr
    rw [idsFrom] at hr
    by_cases hc : (depth_limited_search t g limit).isCutoff = true
    · rw [if_pos hc] at hr
      exact ih (limit + 1) r hr
    · rw [if_neg hc] at hr
      rcases Option.some_injective _ hr with rfl
      intro hcut
      rw [hcut] at hc
      exact hc rfl

end FileSearch
namespace FileSearch

theorem wf_expand {init : RTree} {node : Node} (h : node.WF init) :
    ∀ m ∈ expand node, m.WF init := by
  intro m hm
  obtain ⟨a, ha, rfl⟩ := fs_mem_expand.mp hm
  exact ⟨rfl, ha, h⟩

theorem dlsLoop_found_wf {init : RTree} (g : String) (limit : Nat)
    (fr : List Node) (res : DLSResult) :
    (∀ m ∈ fr, m.WF init) → (∀ n', ¬ res = .found n') →
    ∀ n, dlsLoop g limit fr res = .found n → n.WF init := by
  induction fr, res using dlsLoop.induct g limit with
  | case1 res =>
    intro _ hres n hn
    rw [dlsLoop] at hn
    exact absurd hn (hres n)
  | case2 res node rest hg =>
    intro hwf _ n hn
    rw [dlsLoop] at hn
    simp only [hg, if_true] at hn
    injection hn with hn
    subst hn
    exact hwf node (by simp)
  | case3 res node rest hg hd ih =>
    intro hwf hres n hn
    rw [dlsLoop] at hn
    simp only [hg, hd, if_true, if_false] at hn
    exact ih (fun m hm => hwf m (by simp [hm])) (fun n' h => by cases h) n hn
  | case4 res node rest hg hd ih =>
    intro hwf hres n hn
    rw [dlsLoop] at hn
    simp only [hg, hd, if_false] at hn
    apply ih ?_ hres n hn
    intro m hm
    rcases List.mem_append.mp hm with hm | hm
    · exact wf_expand (hwf node (by simp)) m (List.mem_reverse.mp hm)
    · exact hwf m (by simp [hm])

theorem stateChain_getLast : ∀ n : Node, n.stateChain.getLast? = some n.state
  | .mk s none a c => by simp [Node.stateChain, Node.state]
  | .mk s (some p) a c => by
    simp [Node.stateChain, Node.state, List.getLast?_concat]

theorem wf_node_chain (init : RTree) :
    ∀ n : Node, n.WF init →
      n.stateChain = init :: n.actionChain
      ∧ n.actionChain.foldl result init = n.state
      ∧ path_states n = n.stateChain.map RTree.value
  | .mk s none a c => by
    rintro ⟨rfl, rfl⟩
    simp [Node.stateChain, Node.actionChain, Node.state, path_states]
  | .mk s (some p) a c => by
    rintro ⟨rfl, hmem, hwf⟩
    obtain ⟨h1, h2, h3⟩ := wf_node_chain init p hwf
    refine ⟨?_, ?_, ?_⟩
    · simp [Node.stateChain, Node.actionChain, h1, Option.toList]
    · simp [Node.actionChain, Node.state, Option.toList, List.foldl_append, h2, result]
    · simp [path_states, Node.stateChain, h3]

end FileSearch

/-- Claim C7: every node returned by the file-system depth-limited search
carries a parent chain that reconstructs the route from the initial state:
`path_states` lists exactly the names of the states along the chain, the
chain of states is the initial state followed by the recorded actions (each
recorded action *is* the state it produced, since `result state action =
action`), folding `result` over the recorded actions from the initial state
reproduces the found state, and the chain ends at the found state. -/
theorem claim_C7_path_reconstruction (t : FileSearch.RTree) (g : String)
    (limit : Nat) (n : FileSearch.Node)
    (h : FileSearch.depth_limited_search t g limit = .found n) :
    FileSearch.path_states n = n.stateChain.map FileSearch.RTree.value
    ∧ n.stateChain = t :: n.actionChain
    ∧ n.actionChain.foldl FileSearch.result t = n.state
    ∧ n.stateChain.getLast? = some n.state := by
  have hwf : n.WF t := by
    apply FileSearch.dlsLoop_found_wf g limit [FileSearch.Node.mk t none none 0]
      .failure ?_ ?_ n h
    · intro m hm
      rcases List.mem_singleton.mp hm with rfl
      exact ⟨rfl, rfl⟩
    · intro n' h'
      cases h'
  obtain ⟨h1, h2, h3⟩ := FileSearch.wf_node_chain t n hwf
  exact ⟨h3, h1, h2, FileSearch.stateChain_getLast n⟩
/-- Claim C9: for every finite state space — here, every finite filesystem
tree — the iterative-deepening driver of `src/file_system_search.py`
terminates: some pass runs to completion without recording a cutoff and the
driver returns exactly that pass's result, which is a goal node or the
`failure` sentinel, provided the tree is shallow enough for
`range(1, sys.maxsize)` to reach that pass. -/
theorem claim_C9_driver_terminates (t : FileSearch.RTree) (g : String)
    (h : t.height + 2 ≤ SYSMAX) :
    ∃ L r, FileSearch.depth_limited_search t g L = r
      ∧ ¬ r = .cutoff
      ∧ FileSearch.iterative_deepening_search t g = some r := by
  obtain ⟨L, hL1, hL2⟩ := FileSearch.idsFrom_stops t g (SYSMAX - 1) 1
    ⟨t.height + 1, by omega, by
      have h2 : 2 ≤ SYSMAX := by decide
      omega, FileSearch.dls_ne_cutoff t g⟩
  refine ⟨L, FileSearch.depth_limited_search t g L, rfl, ?_, hL2⟩
  intro hcut
  rw [hcut] at hL1
  exact hL1 rfl

theorem claim_C9_witness :
    FileSearch.fsRoot.height + 2 ≤ SYSMAX
    ∧ ∃ L r, FileSearch.depth_limited_search FileSearch.fsRoot "file_d" L = r
      ∧ ¬ r = .cutoff
      ∧ FileSearch.iterative_deepening_search FileSearch.fsRoot "file_d" = some r := by
  have h : FileSearch.fsRoot.height + 2 ≤ SYSMAX := by decide
  exact ⟨h, claim_C9_driver_terminates FileSearch.fsRoot "file_d" h⟩
theorem claim_C7_witness :
    FileSearch.path_states FileSearch.fsFound
        = FileSearch.fsFound.stateChain.map FileSearch.RTree.value
    ∧ FileSearch.fsFound.stateChain
        = FileSearch.fsRoot :: FileSearch.fsFound.actionChain
    ∧ FileSearch.fsFound.actionChain.foldl FileSearch.result FileSearch.fsRoot
        = FileSearch.fsFound.state
    ∧ FileSearch.fsFound.stateChain.getLast? = some FileSearch.fsFound.state :=
  claim_C7_path_reconstruction FileSearch.fsRoot "file_d" 3 FileSearch.fsFound
    (by simp [FileSearch.depth_limited_search, FileSearch.dlsLoop,
      FileSearch.expand, FileSearch.actions, FileSearch.is_goal,
      FileSearch.result, FileSearch.Node.state, FileSearch.Node.depth,
      FileSearch.Node.path_cost, FileSearch.RTree.children,
      FileSearch.RTree.value, FileSearch.fsRoot, FileSearch.subdir1,
      FileSearch.subdir2, FileSearch.subdir3, FileSearch.fileA,
      FileSearch.fileB, FileSearch.fileC, FileSearch.fileD,
      FileSearch.fsFound])

/-- Claim C8: the `cutoff` sentinel is used only internally to decide whether
to retry with a larger bound; whenever either single-goal driver returns, its
result is a goal node or the `failure` sentinel, never `cutoff`. -/
theorem claim_C8_cutoff_never_surfaced :
    (∀ (t : ElementSearch.BTree) (g : Int) (r : ElementSearch.DLSResult),
      ElementSearch.iterative_deepening_search t g = some r → ¬ r = .cutoff)
    ∧ (∀ (t : FileSearch.RTree) (g : String) (r : FileSearch.DLSResult),
      FileSearch.iterative_deepening_search t g = some r → ¬ r = .cutoff) :=
  ⟨fun t g r h => ElementSearch.idsFrom_ne_cutoff t g (SYSMAX - 1) 1 r h,
   fun t g r h => FileSearch.fs_idsFrom_ne_cutoff t g (SYSMAX - 1) 1 r h⟩

theorem claim_C8_witness :
    ¬ ElementSearch.DLSResult.found ElementSearch.demoFound
        = ElementSearch.DLSResult.cutoff
    ∧ ¬ FileSearch.DLSResult.found FileSearch.fsFound
        = FileSearch.DLSResult.cutoff :=
  ⟨claim_C8_cutoff_never_surfaced.1 ElementSearch.demoTree 4
      (.found ElementSearch.demoFound)
      (by simp [ElementSearch.iterative_deepening_search, SYSMAX,
        ElementSearch.idsFrom, ElementSearch.depth_limited_search,
        ElementSearch.dlsLoop, ElementSearch.expand, ElementSearch.actions,
        ElementSearch.is_goal, ElementSearch.result, ElementSearch.Node.state,
        ElementSearch.Node.depth, ElementSearch.Node.path_cost,
        ElementSearch.BTree.left, ElementSearch.BTree.right,
        ElementSearch.BTree.value, ElementSearch.DLSResult.isCutoff,
        ElementSearch.demoTree, ElementSearch.demoT2, ElementSearch.demoT3,
        ElementSearch.demoT6, ElementSearch.demoT7, ElementSearch.demoT9,
        ElementSearch.demoT5, ElementSearch.demoT8, ElementSearch.demoT4,
        ElementSearch.demoFound]),
   claim_C8_cutoff_never_surfaced.2 FileSearch.fsRoot "file_d"
      (.found FileSearch.fsFound)
      (by simp [FileSearch.iterative_deepening_search, SYSMAX,
        FileSearch.idsFrom, FileSearch.depth_limited_search,
        FileSearch.dlsLoop, FileSearch.expand, FileSearch.actions,
        FileSearch.is_goal, FileSearch.result, FileSearch.Node.state,
        FileSearch.Node.depth, FileSearch.Node.path_cost,
        FileSearch.RTree.children, FileSearch.RTree.value,
        FileSearch.DLSResult.isCutoff, FileSearch.fsRoot, FileSearch.subdir1,
        FileSearch.subdir2, FileSearch.subdir3, FileSearch.fileA,
        FileSearch.fileB, FileSearch.fileC, FileSearch.fileD,
        FileSearch.fsFound])⟩
namespace RightsSearch

theorem matchCount_eq (d : Nat) (p : String) (m : Nat) (b : Bool)
    (cs : List FSTree) :
    matchCount d (.mk p m b cs)
      = (if 3 ≤ d ∧ is_goal (.mk p m b cs) = true then 1 else 0)
        + matchCountList (d + 1) (actions (.mk p m b cs)) := by
  rcases b with _ | _ <;> simp [matchCount, matchCountList, actions]

theorem matchCountList_eq_sum (d : Nat) (cs : List FSTree) :
    matchCountList d cs = (cs.map (matchCount d)).sum := by
  induction cs with
  | nil => simp [matchCountList]
  | cons c cs ih => simp [matchCountList, ih]

theorem r_heightList_ge {cs : List FSTree} {c : FSTree} (hc : c ∈ cs) :
    1 + c.height ≤ heightList cs := by
  induction cs with
  | nil => simp at hc
  | cons d ds ih =>
    rcases List.mem_cons.mp hc with rfl | hc
    · simp [heightList]
    · have := ih hc
      simp [heightList]
      omega

theorem r_height_child {t c : FSTree} (hc : c ∈ actions t) :
    1 + c.height ≤ t.height := by
  rcases t with ⟨p, m, b, cs⟩
  rcases b with _ | _
  · simp [actions] at hc
  · simpa [FSTree.height, actions] using r_heightList_ge hc

theorem r_mem_expand {node m : Node} :
    m ∈ expand node ↔
      ∃ a ∈ actions node.state,
        m = Node.mk a (some node) (some a) (node.path_cost + 1) := by
  simp [expand, result, eq_comm]

theorem r_depth_child (node : Node) (a : FSTree) (x : Option FSTree) (c : Nat) :
    (Node.mk a (some node) x c).depth = 1 + node.depth := by
  simp [Node.depth]

theorem reach_zero {t s : FSTree} (h : Reach t 0 s) : s = t := by
  cases h
  rfl

theorem reach_succ {t s : FSTree} {d : Nat} (h : Reach t (d + 1) s) :
    ∃ c ∈ actions t, Reach c d s := by
  cases h with
  | head hc hr => exact ⟨_, hc, hr⟩

theorem reach_snoc {t s : FSTree} {d : Nat} (h : Reach t d s) :
    ∀ {c : FSTree}, c ∈ actions s → Reach t (d + 1) c := by
  induction h with
  | refl t =>
    intro c hc
    exact Reach.head hc (Reach.refl c)
  | head hc' hr ih =>
    intro c hc
    exact Reach.head hc' (ih hc)

theorem rloop_prefix (limit : Nat) (fr : List Node) (found : List String)
    (res : DLSResult) :
    ∃ extra, (rloop limit fr found res).2 = found ++ extra := by
  induction fr, found, res using rloop.induct limit with
  | case1 found res =>
    refine ⟨[], ?_⟩
    rw [rloop]
    simp
  | case2 found res node rest hcond hq =>
    refine ⟨[node.state.path], ?_⟩
    rw [rloop, if_pos hcond, if_pos hq]
  | case3 found res node rest hcond hq hd ih =>
    obtain ⟨e, he⟩ := ih
    refine ⟨node.state.path :: e, ?_⟩
    rw [rloop, if_pos hcond, if_neg hq, if_pos hd, he]
    simp
  | case4 found res node rest hcond hq hd ih =>
    obtain ⟨e, he⟩ := ih
    refine ⟨node.state.path :: e, ?_⟩
    rw [rloop, if_pos hcond, if_neg hq, if_neg hd, he]
    simp
  | case5 found res node rest hcond hd ih =>
    obtain ⟨e, he⟩ := ih
    refine ⟨e, ?_⟩
    rw [rloop, if_neg hcond, if_pos hd, he]
  | case6 found res node rest hcond hd ih =>
    obtain ⟨e, he⟩ := ih
    refine ⟨e, ?_⟩
    rw [rloop, if_neg hcond, if_neg hd, he]

theorem rloop_sound (t : FSTree) (limit : Nat) (fr : List Node)
    (found : List String) (res : DLSResult) :
    (∀ n ∈ fr, Reach t n.depth n.state) →
    ∀ p ∈ (rloop limit fr found res).2,
      p ∈ found ∨ ∃ d s, Reach t d s ∧ 3 ≤ d ∧ is_goal s = true ∧ s.path = p := by
  induction fr, found, res using rloop.induct limit with
  | case1 found res =>
    intro _ p hp
    rw [rloop] at hp
    exact Or.inl hp
  | case2 found res node rest hcond hq =>
    intro hfr p hp
    rw [rloop, if_pos hcond, if_pos hq] at hp
    rcases List.mem_append.mp hp with hp | hp
    · exact Or.inl hp
    · rcases List.mem_singleton.mp hp with rfl
      exact Or.inr ⟨node.depth, node.state, hfr node (by simp), hcond.1, hcond.2, rfl⟩
  | case3 found res node rest hcond hq hd ih =>
    intro hfr p hp
    rw [rloop, if_pos hcond, if_neg hq, if_pos hd] at hp
    rcases ih (fun n hn => hfr n (by simp [hn])) p hp with hp | hp
    · rcases List.mem_append.mp hp with hp | hp
      · exact Or.inl hp
      · rcases List.mem_singleton.mp hp with rfl
        exact Or.inr ⟨node.depth, node.state, hfr node (by simp), hcond.1, hcond.2, rfl⟩
    · exact Or.inr hp
  | case4 found res node rest hcond hq hd ih =>
    intro hfr p hp
    rw [rloop, if_pos hcond, if_neg hq, if_neg hd] at hp
    have hfr' : ∀ n ∈ (expand node).reverse ++ rest, Reach t n.depth n.state := by
      intro n hn
      rcases List.mem_append.mp hn with hn | hn
      · obtain ⟨a, ha, rfl⟩ := r_mem_expand.mp (List.mem_reverse.mp hn)
        simp only [Node.state, r_depth_child, Nat.add_comm 1 node.depth]
        exact reach_snoc (hfr node (by simp)) ha
      · exact hfr n (by simp [hn])
    rcases ih hfr' p hp with hp | hp
    · rcases List.mem_append.mp hp with hp | hp
      · exact Or.inl hp
      · rcases List.mem_singleton.mp hp with rfl
        exact Or.inr ⟨node.depth, node.state, hfr node (by simp), hcond.1, hcond.2, rfl⟩
    · exact Or.inr hp
  | case5 found res node rest hcond hd ih =>
    intro hfr p hp
    rw [rloop, if_neg hcond, if_pos hd] at hp
    exact ih (fun n hn => hfr n (by simp [hn])) p hp
  | case6 found res node rest hcond hd ih =>
    intro hfr p hp
    rw [rloop, if_neg hcond, if_neg hd] at hp
    have hfr' : ∀ n ∈ (expand node).reverse ++ rest, Reach t n.depth n.state := by
      intro n hn
      rcases List.mem_append.mp hn with hn | hn
      · obtain ⟨a, ha, rfl⟩ := r_mem_expand.mp (List.mem_reverse.mp hn)
        simp only [Node.state, r_depth_child, Nat.add_comm 1 node.depth]
        exact reach_snoc (hfr node (by simp)) ha
      · exact hfr n (by simp [hn])
    exact ih hfr' p hp

theorem rloop_failure_res (limit : Nat) (fr : List Node) (found : List String)
    (res : DLSResult) :
    (rloop limit fr found res).1 = .failure → res = .failure := by
  induction fr, found, res using rloop.induct limit with
  | case1 found res =>
    intro h
    rw [rloop] at h
    exact h
  | case2 found res node rest hcond hq =>
    intro h
    rw [rloop, if_pos hcond, if_pos hq] at h
    cases h
  | case3 found res node rest hcond hq hd ih =>
    intro h
    rw [rloop, if_pos hcond, if_neg hq, if_pos hd] at h
    cases ih h
  | case4 found res node rest hcond hq hd ih =>
    intro h
    rw [rloop, if_pos hcond, if_neg hq, if_neg hd] at h
    exact ih h
  | case5 found res node rest hcond hd ih =>
    intro h
    rw [rloop, if_neg hcond, if_pos hd] at h
    cases ih h
  | case6 found res node rest hcond hd ih =>
    intro h
    rw [rloop, if_neg hcond, if_neg hd] at h
    exact ih h

end RightsSearch
namespace RightsSearch

theorem expand_matchSum (node : Node) :
    (((expand node).reverse).map (fun n => matchCount n.depth n.state)).sum
      = matchCountList (node.depth + 1) (actions node.state) := by
  rw [matchCountList_eq_sum]
  rw [List.map_reverse, List.sum_reverse]
  simp only [expand, List.map_map]
  apply congrArg
  apply List.map_congr_left
  intro a _
  simp [Function.comp, Node.state, r_depth_child, result, Nat.add_comm 1 node.depth]

theorem rloop_failure_count (limit : Nat) (fr : List Node) (found : List String)
    (res : DLSResult) :
    (rloop limit fr found res).1 = .failure →
    (rloop limit fr found res).2.length
      = found.length + (fr.map (fun n => matchCount n.depth n.state)).sum := by
  induction fr, found, res using rloop.induct limit with
  | case1 found res =>
    intro _
    rw [rloop]
    simp
  | case2 found res node rest hcond hq =>
    intro h
    rw [rloop, if_pos hcond, if_pos hq] at h
    cases h
  | case3 found res node rest hcond hq hd ih =>
    intro h
    rw [rloop, if_pos hcond, if_neg hq, if_pos hd] at h
    cases rloop_failure_res _ _ _ _ h
  | case4 found res node rest hcond hq hd ih =>
    intro h
    rw [rloop, if_pos hcond, if_neg hq, if_neg hd] at h ⊢
    rw [ih h]
    rcases hs : node.state with ⟨p, m, b, cs⟩
    have hmc : matchCount node.depth node.state
        = 1 + matchCountList (node.depth + 1) (actions node.state) := by
      rw [hs, matchCount_eq, if_pos]
      rw [← hs]
      exact ⟨hcond.1, hcond.2⟩
    simp only [List.map_cons, List.sum_cons, List.map_append, List.sum_append,
      ← hs, hmc, expand_matchSum, List.length_append, List.length_singleton]
    omega
  | case5 found res node rest hcond hd ih =>
    intro h
    rw [rloop, if_neg hcond, if_pos hd] at h
    cases rloop_failure_res _ _ _ _ h
  | case6 found res node rest hcond hd ih =>
    intro h
    rw [rloop, if_neg hcond, if_neg hd] at h ⊢
    rw [ih h]
    rcases hs : node.state with ⟨p, m, b, cs⟩
    have hmc : matchCount node.depth node.state
        = matchCountList (node.depth + 1) (actions node.state) := by
      rw [hs, matchCount_eq, if_neg]
      · omega
      · rw [← hs]
        exact hcond
    simp only [List.map_cons, List.sum_cons, List.map_append, List.sum_append,
      ← hs, hmc, expand_matchSum]

theorem rloop_ne_cutoff (limit : Nat) (fr : List Node) (found : List String)
    (res : DLSResult) :
    ¬ res = .cutoff → (∀ n ∈ fr, n.depth + n.state.height < limit) →
    ¬ (rloop limit fr found res).1 = .cutoff := by
  induction fr, found, res using rloop.induct limit with
  | case1 found res =>
    intro hres _
    rw [rloop]
    exact hres
  | case2 found res node rest hcond hq =>
    intro _ _
    rw [rloop, if_pos hcond, if_pos hq]
    simp
  | case3 found res node rest hcond hq hd ih =>
    intro _ hsh
    have := hsh node (by simp)
    omega
  | case4 found res node rest hcond hq hd ih =>
    intro hres hsh
    rw [rloop, if_pos hcond, if_neg hq, if_neg hd]
    apply ih hres
    intro n hn
    rcases List.mem_append.mp hn with hn | hn
    · obtain ⟨a, ha, rfl⟩ := r_mem_expand.mp (List.mem_reverse.mp hn)
      have := r_height_child ha
      have := hsh node (by simp)
      simp only [Node.state, r_depth_child]
      omega
    · exact hsh n (by simp [hn])
  | case5 found res node rest hcond hd ih =>
    intro _ hsh
    have := hsh node (by simp)
    omega
  | case6 found res node rest hcond hd ih =>
    intro hres hsh
    rw [rloop, if_neg hcond, if_neg hd]
    apply ih hres
    intro n hn
    rcases List.mem_append.mp hn with hn | hn
    · obtain ⟨a, ha, rfl⟩ := r_mem_expand.mp (List.mem_reverse.mp hn)
      have := r_height_child ha
      have := hsh node (by simp)
      simp only [Node.state, r_depth_child]
      omega
    · exact hsh n (by simp [hn])

theorem rloop_quota (limit : Nat) (fr : List Node) (found : List String)
    (res : DLSResult) :
    found.length < 10 → (∀ n', ¬ res = .found n') →
    (∃ n, (rloop limit fr found res).1 = .found n
        ∧ (rloop limit fr found res).2.length = 10)
    ∨ ((∀ n', ¬ (rloop limit fr found res).1 = .found n')
        ∧ (rloop limit fr found res).2.length < 10) := by
  induction fr, found, res using rloop.induct limit with
  | case1 found res =>
    intro hlen hres
    rw [rloop]
    exact Or.inr ⟨hres, hlen⟩
  | case2 found res node rest hcond hq =>
    intro hlen _
    rw [rloop, if_pos hcond, if_pos hq]
    refine Or.inl ⟨node, rfl, ?_⟩
    simp only [List.length_append, List.length_singleton] at hq ⊢
    omega
  | case3 found res node rest hcond hq hd ih =>
    intro hlen _
    rw [rloop, if_pos hcond, if_neg hq, if_pos hd]
    apply ih
    · simp only [List.length_append, List.length_singleton] at hq ⊢
      omega
    · intro n' h
      cases h
  | case4 found res node rest hcond hq hd ih =>
    intro hlen hres
    rw [rloop, if_pos hcond, if_neg hq, if_neg hd]
    apply ih
    · simp only [List.length_append, List.length_singleton] at hq ⊢
      omega
    · exact hres
  | case5 found res node rest hcond hd ih =>
    intro hlen _
    rw [rloop, if_neg hcond, if_pos hd]
    apply ih hlen
    intro n' h
    cases h
  | case6 found res node rest hcond hd ih =>
    intro hlen hres
    rw [rloop, if_neg hcond, if_neg hd]
    exact ih hlen hres

theorem rloop_failure_cover (limit : Nat) (fr : List Node) (found : List String)
    (res : DLSResult) :
    (rloop limit fr found res).1 = .failure →
    ∀ n ∈ fr, ∀ d s, Reach n.state d s → 3 ≤ n.depth + d → is_goal s = true →
      s.path ∈ (rloop limit fr found res).2 := by
  induction fr, found, res using rloop.induct limit with
  | case1 found res =>
    intro _ n hn
    simp at hn
  | case2 found res node rest hcond hq =>
    intro h
    rw [rloop, if_pos hcond, if_pos hq] at h
    cases h
  | case3 found res node rest hcond hq hd ih =>
    intro h
    rw [rloop, if_pos hcond, if_neg hq, if_pos hd] at h
    cases rloop_failure_res _ _ _ _ h
  | case4 found res node rest hcond hq hd ih =>
    intro h n hn d s hreach hdep hgoal
    rw [rloop, if_pos hcond, if_neg hq, if_neg hd] at h ⊢
    rcases List.mem_cons.mp hn with rfl | hn
    · rcases d with _ | d
      · rcases reach_zero hreach with rfl
        obtain ⟨e, he⟩ := rloop_prefix limit ((expand n).reverse ++ rest)
          (found ++ [n.state.path]) res
        rw [he]
        simp
      · obtain ⟨c, hc, hreach'⟩ := reach_succ hreach
        apply ih h (Node.mk c (some n) (some c) (n.path_cost + 1)) ?_ d s
        · simpa [Node.state] using hreach'
        · simp only [r_depth_child]
          omega
        · exact hgoal
        · simp only [List.mem_append, List.mem_reverse]
          exact Or.inl (r_mem_expand.mpr ⟨c, hc, rfl⟩)
    · exact ih h n (by simp [hn]) d s hreach hdep hgoal
  | case5 found res node rest hcond hd ih =>
    intro h
    rw [rloop, if_neg hcond, if_pos hd] at h
    cases rloop_failure_res _ _ _ _ h
  | case6 found res node rest hcond hd ih =>
    intro h n hn d s hreach hdep hgoal
    rw [rloop, if_neg hcond, if_neg hd] at h ⊢
    rcases List.mem_cons.mp hn with rfl | hn
    · rcases d with _ | d
      · rcases reach_zero hreach with rfl
        exact absurd ⟨by simpa using hdep, hgoal⟩ hcond
      · obtain ⟨c, hc, hreach'⟩ := reach_succ hreach
        apply ih h (Node.mk c (some n) (some c) (n.path_cost + 1)) ?_ d s
        · simpa [Node.state] using hreach'
        · simp only [r_depth_child]
          omega
        · exact hgoal
        · simp only [List.mem_append, List.mem_reverse]
          exact Or.inl (r_mem_expand.mpr ⟨c, hc, rfl⟩)
    · exact ih h n (by simp [hn]) d s hreach hdep hgoal

end RightsSearch
namespace RightsSearch

theorem root_reach (t : FSTree) :
    ∀ n ∈ [Node.mk t none none 0], Reach t n.depth n.state := by
  intro n hn
  rcases List.mem_singleton.mp hn with rfl
  simpa [Node.state, Node.depth] using Reach.refl t

theorem dls_pair (t : FSTree) (limit : Nat) (found : List String)
    {r : DLSResult} {found' : List String}
    (h : depth_limited_search t limit found = (r, found')) :
    (rloop limit [Node.mk t none none 0] found .failure).1 = r
    ∧ (rloop limit [Node.mk t none none 0] found .failure).2 = found' := by
  rw [depth_limited_search] at h
  rw [h]
  exact ⟨rfl, rfl⟩

theorem ridsFrom_sound (t : FSTree) :
    ∀ fuel limit found, ∀ p ∈ idsFrom t limit fuel found,
      p ∈ found ∨ ∃ d s, Reach t d s ∧ 3 ≤ d ∧ is_goal s = true ∧ s.path = p := by
  intro fuel
  induction fuel with
  | zero =>
    intro limit found p hp
    rw [idsFrom] at hp
    exact Or.inl hp
  | succ f ih =>
    intro limit found p hp
    rcases hdls : depth_limited_search t limit found with ⟨r, found'⟩
    obtain ⟨hr1, hr2⟩ := dls_pair t limit found hdls
    have hsound : ∀ q ∈ found',
        q ∈ found ∨ ∃ d s, Reach t d s ∧ 3 ≤ d ∧ is_goal s = true ∧ s.path = q := by
      intro q hq
      exact rloop_sound t limit [Node.mk t none none 0] found .failure
        (root_reach t) q (by rw [hr2]; exact hq)
    rw [idsFrom, hdls] at hp
    dsimp only at hp
    by_cases h10 : 10 ≤ found'.length
    · rw [if_pos h10] at hp
      exact hsound p hp
    · rw [if_neg h10] at hp
      by_cases hc : r.isCutoff = true
      · rw [if_pos hc] at hp
        rcases ih (limit + 1) found' p hp with hpf | hm
        · exact hsound p hpf
        · exact Or.inr hm
      · rw [if_neg hc] at hp
        exact hsound p hp

theorem ridsFrom_len_le (t : FSTree) :
    ∀ fuel limit found, found.length < 10 →
      (idsFrom t limit fuel found).length ≤ 10 := by
  intro fuel
  induction fuel with
  | zero =>
    intro limit found hlen
    rw [idsFrom]
    omega
  | succ f ih =>
    intro limit found hlen
    rcases hdls : depth_limited_search t limit found with ⟨r, found'⟩
    obtain ⟨hr1, hr2⟩ := dls_pair t limit found hdls
    rw [idsFrom, hdls]
    dsimp only
    rcases rloop_quota limit [Node.mk t none none 0] found .failure hlen
        (fun n' h => by cases h) with ⟨n, hn, hlen10⟩ | ⟨hnf, hlen'⟩
    · rw [hr2] at hlen10
      rw [if_pos (by omega)]
      omega
    · rw [hr2] at hlen'
      rw [if_neg (by omega)]
      by_cases hc : r.isCutoff = true
      · rw [if_pos hc]
        exact ih (limit + 1) found' hlen'
      · rw [if_neg hc]
        omega

theorem ridsFrom_eq10 (t : FSTree) :
    ∀ fuel limit found, found.length < 10 → 10 ≤ matchCount 0 t → 1 ≤ fuel →
      (t.height < limit ∨ t.height + 2 ≤ limit + fuel) →
      (idsFrom t limit fuel found).length = 10 := by
  intro fuel
  induction fuel with
  | zero =>
    intro limit found _ _ h1 _
    omega
  | succ f ih =>
    intro limit found hlen hmc _ hcond
    rcases hdls : depth_limited_search t limit found with ⟨r, found'⟩
    obtain ⟨hr1, hr2⟩ := dls_pair t limit found hdls
    rw [idsFrom, hdls]
    dsimp only
    rcases rloop_quota limit [Node.mk t none none 0] found .failure hlen
        (fun n' h => by cases h) with ⟨n, hn, hlen10⟩ | ⟨hnf, hlen'⟩
    · rw [hr2] at hlen10
      rw [if_pos (by omega)]
      exact hlen10
    · rw [hr2] at hlen'
      rw [if_neg (by omega)]
      rcases r with n | _ | _
      · exact absurd (hr1.trans rfl) (by rw [hr1] at hnf ⊢; exact (hnf n))
      · exfalso
        have hcount := rloop_failure_count limit [Node.mk t none none 0] found
          .failure (by rw [hr1])
        rw [hr2] at hcount
        simp only [List.map_cons, List.map_nil, List.sum_cons, List.sum_nil,
          Node.state, Node.depth] at hcount
        omega
      · have hle : limit ≤ t.height := by
          by_contra hgt
          exact rloop_ne_cutoff limit [Node.mk t none none 0] found .failure
            (by intro h; cases h)
            (by
              intro n hn
              rcases List.mem_singleton.mp hn with rfl
              simp only [Node.state, Node.depth]
              omega)
            (by rw [hr1])
        rw [if_pos (show DLSResult.isCutoff DLSResult.cutoff = true from rfl)]
        apply ih (limit + 1) found' hlen' hmc (by omega)
        right
        omega

theorem ridsFrom_cover (t : FSTree) :
    ∀ fuel limit found, found.length < 10 → 1 ≤ fuel →
      (t.height < limit ∨ t.height + 2 ≤ limit + fuel) →
      (idsFrom t limit fuel found).length < 10 →
      ∀ d s, Reach t d s → 3 ≤ d → is_goal s = true →
        s.path ∈ idsFrom t limit fuel found := by
  intro fuel
  induction fuel with
  | zero =>
    intro limit found _ h1 _
    omega
  | succ f ih =>
    intro limit found hlen _ hcond hout d s hreach hd hgoal
    rcases hdls : depth_limited_search t limit found with ⟨r, found'⟩
    obtain ⟨hr1, hr2⟩ := dls_pair t limit found hdls
    rw [idsFrom, hdls] at hout ⊢
    dsimp only at hout ⊢
    rcases rloop_quota limit [Node.mk t none none 0] found .failure hlen
        (fun n' h => by cases h) with ⟨n, hn, hlen10⟩ | ⟨hnf, hlen'⟩
    · rw [hr2] at hlen10
      rw [if_pos (by omega)] at hout
      omega
    · rw [hr2] at hlen'
      rw [if_neg (by omega)] at hout ⊢
      rcases r with n | _ | _
      · exact absurd hr1 (hnf n)
      · have hfc := rloop_failure_cover limit [Node.mk t none none 0] found
          .failure (by rw [hr1]) (Node.mk t none none 0) (by simp) d s
          (by simpa [Node.state] using hreach)
          (by simpa [Node.depth] using hd) hgoal
        rw [hr2] at hfc
        simpa [DLSResult.isCutoff] using hfc
      · have hle : limit ≤ t.height := by
          by_contra hgt
          exact rloop_ne_cutoff limit [Node.mk t none none 0] found .failure
            (by intro h; cases h)
            (by
              intro n hn
              rcases List.mem_singleton.mp hn with rfl
              simp only [Node.state, Node.depth]
              omega)
            (by rw [hr1])
        rw [if_pos (show DLSResult.isCutoff DLSResult.cutoff = true from rfl)] at hout ⊢
        exact ih (limit + 1) found' hlen' (by omega) (by right; omega) hout
          d s hreach hd hgoal

end RightsSearch
/-- Claim C4, counterexample: the snapshot `demoFS` has exactly one node
matching `is_goal` at depth ≥ 3, yet after the driver returns the accumulator
holds three entries, not one: the accumulator is shared across the passes at
limits 3, 4 and 5 and is never reset, so the single match is appended once
per pass. -/
theorem claim_C4_counterexample :
    RightsSearch.matchCount 0 RightsSearch.demoFS = 1
    ∧ RightsSearch.iterative_deepening_search RightsSearch.demoFS 3 []
        = ["m", "m", "m"]
    ∧ ¬ (RightsSearch.iterative_deepening_search RightsSearch.demoFS 3 []).length
        = RightsSearch.matchCount 0 RightsSearch.demoFS := by
  refine ⟨by decide, ?_, ?_⟩
  · simp [RightsSearch.iterative_deepening_search, SYSMAX, RightsSearch.idsFrom,
      RightsSearch.depth_limited_search, RightsSearch.rloop,
      RightsSearch.expand, RightsSearch.actions, RightsSearch.is_goal,
      RightsSearch.result, RightsSearch.Node.state, RightsSearch.Node.depth,
      RightsSearch.Node.path_cost, RightsSearch.FSTree.path,
      RightsSearch.DLSResult.isCutoff,
      RightsSearch.demoFS, RightsSearch.cA, RightsSearch.cB, RightsSearch.cM,
      RightsSearch.cC, RightsSearch.cD, RightsSearch.cE, RightsSearch.cF]
  · intro h
    rw [show RightsSearch.iterative_deepening_search RightsSearch.demoFS 3 []
        = ["m", "m", "m"] by
      simp [RightsSearch.iterative_deepening_search, SYSMAX, RightsSearch.idsFrom,
        RightsSearch.depth_limited_search, RightsSearch.rloop,
        RightsSearch.expand, RightsSearch.actions, RightsSearch.is_goal,
        RightsSearch.result, RightsSearch.Node.state, RightsSearch.Node.depth,
        RightsSearch.Node.path_cost, RightsSearch.FSTree.path,
        RightsSearch.DLSResult.isCutoff,
        RightsSearch.demoFS, RightsSearch.cA, RightsSearch.cB, RightsSearch.cM,
        RightsSearch.cC, RightsSearch.cD, RightsSearch.cE, RightsSearch.cF]] at h
    rw [show RightsSearch.matchCount 0 RightsSearch.demoFS = 1 by decide] at h
    simp at h

/-- Claim C4 as amended: with `K = 10` and `min_depth = 3`, every entry of the
final accumulator is the path of a node matching `is_goal` at depth ≥ 3; the
accumulator never exceeds 10 entries; entries can repeat across passes (the
accumulator is shared and never reset), so when the driver returns with fewer
than 10 entries the accumulator covers the path of *every* matching node (at
least one entry per matching node) but may hold more entries than there are
matching nodes; and for every snapshot with at least 10 matching nodes at
depth ≥ 3 the accumulator holds exactly 10 entries. -/
theorem claim_C4_amended_bounded_enumeration (t : RightsSearch.FSTree)
    (h : t.height + 2 ≤ SYSMAX) :
    (∀ p ∈ RightsSearch.iterative_deepening_search t 3 [],
      ∃ d s, RightsSearch.Reach t d s ∧ 3 ≤ d ∧ RightsSearch.is_goal s = true
        ∧ s.path = p)
    ∧ (RightsSearch.iterative_deepening_search t 3 []).length ≤ 10
    ∧ ((RightsSearch.iterative_deepening_search t 3 []).length < 10 →
        ∀ d s, RightsSearch.Reach t d s → 3 ≤ d → RightsSearch.is_goal s = true →
          s.path ∈ RightsSearch.iterative_deepening_search t 3 [])
    ∧ (10 ≤ RightsSearch.matchCount 0 t →
        (RightsSearch.iterative_deepening_search t 3 []).length = 10) := by
  have hS : 5 ≤ SYSMAX := by decide
  have hfuel : (1 : Nat) ≤ SYSMAX - 3 := by omega
  have hcond : t.height < 3 ∨ t.height + 2 ≤ 3 + (SYSMAX - 3) := by
    right
    omega
  refine ⟨?_, ?_, ?_, ?_⟩
  · intro p hp
    rcases RightsSearch.ridsFrom_sound t (SYSMAX - 3) 3 [] p hp with hp | hm
    · simp at hp
    · exact hm
  · exact RightsSearch.ridsFrom_len_le t (SYSMAX - 3) 3 [] (by simp)
  · intro hlt d s hreach hd hgoal
    exact RightsSearch.ridsFrom_cover t (SYSMAX - 3) 3 [] (by simp) hfuel hcond
      hlt d s hreach hd hgoal
  · intro hmc
    exact RightsSearch.ridsFrom_eq10 t (SYSMAX - 3) 3 [] (by simp) hmc hfuel hcond

theorem claim_C4_witness :
    (RightsSearch.demoFS.height + 2 ≤ SYSMAX)
    ∧ ((∀ p ∈ RightsSearch.iterative_deepening_search RightsSearch.demoFS 3 [],
      ∃ d s, RightsSearch.Reach RightsSearch.demoFS d s ∧ 3 ≤ d
        ∧ RightsSearch.is_goal s = true ∧ s.path = p)
    ∧ (RightsSearch.iterative_deepening_search RightsSearch.demoFS 3 []).length ≤ 10
    ∧ ((RightsSearch.iterative_deepening_search RightsSearch.demoFS 3 []).length < 10 →
        ∀ d s, RightsSearch.Reach RightsSearch.demoFS d s → 3 ≤ d →
          RightsSearch.is_goal s = true →
          s.path ∈ RightsSearch.iterative_deepening_search RightsSearch.demoFS 3 [])
    ∧ (10 ≤ RightsSearch.matchCount 0 RightsSearch.demoFS →
        (RightsSearch.iterative_deepening_search RightsSearch.demoFS 3 []).length
          = 10)) := by
  have h : RightsSearch.demoFS.height + 2 ≤ SYSMAX := by decide
  exact ⟨h, claim_C4_amended_bounded_enumeration RightsSearch.demoFS h⟩
